import Mathlib

/-!
Verification of the JSON Harmony distributed-compute coordinator
(`src/server/server.py`).  The server state (client registry, task store,
pending queue, counters, latency history) is embedded shallowly: python
dicts become insertion-ordered association lists, the event handlers
become pure state-transition functions, and the websocket `send` calls
become a boolean oracle `sendOk` saying which sends succeed.
-/

namespace JsonHarmony

/-- Task lifecycle states (`task["status"]` in the source). -/
inductive TStatus where
  | pending
  | processing
  | completed
  | failed
  deriving DecidableEq, Repr

/-- Worker availability states (`client_info[c]["status"]`). -/
inductive CStatus where
  | idle
  | computing
  deriving DecidableEq, Repr

/-- One entry of `self.client_info`. -/
structure ClientInfo where
  name : String
  cores : Nat
  performance : Nat
  status : CStatus
  last_seen : Nat
  deriving DecidableEq, Repr

/-- One entry of `self.tasks`. `dimensions` and `result` are opaque blobs,
modelled as numbers. -/
structure Task where
  id : String
  ttype : String
  status : TStatus
  assignedTo : Option String
  result : Option Nat
  startTime : Option Nat
  endTime : Option Nat
  dimensions : Nat
  created : Nat
  deriving DecidableEq, Repr

/-- Insertion-ordered association list: the model of a python dict. -/
abbrev AList (β : Type) := List (String × β)

/-- Dict lookup `m[k]` (first matching key). -/
def alget {β : Type} (m : AList β) (k : String) : Option β :=
  match m with
  | [] => none
  | (k2, v) :: rest => if k2 = k then some v else alget rest k

/-- Dict assignment `m[k] = v`: replace in place if present, else append
(python dicts keep the original insertion position on overwrite). -/
def alset {β : Type} (m : AList β) (k : String) (v : β) : AList β :=
  match m with
  | [] => [(k, v)]
  | (k2, v2) :: rest => if k2 = k then (k2, v) :: rest else (k2, v2) :: alset rest k v

/-- Dict deletion `del m[k]` (first matching key). -/
def aldel {β : Type} (m : AList β) (k : String) : AList β :=
  match m with
  | [] => []
  | (k2, v2) :: rest => if k2 = k then rest else (k2, v2) :: aldel rest k

/-- Update every value in place, keys unchanged (an in-place `for` loop
over `m.items()`). -/
def almap {β : Type} (f : String → β → β) (m : AList β) : AList β :=
  m.map (fun p => (p.1, f p.1 p.2))

/-- The keys of a dict, in insertion order. -/
def alkeys {β : Type} (m : AList β) : List String :=
  m.map Prod.fst

/-- The mutable fields of `DistributedComputeServer`. `clients` keeps only
the keys of the websocket dict; the sockets themselves are abstracted by
the send oracle. -/
structure ServerState where
  clients : List String
  client_info : AList ClientInfo
  tasks : AList Task
  pending_tasks : List String
  start_time : Option Nat
  total_completed_tasks : Nat
  total_failed_tasks : Nat
  latencies : List Rat
  deriving DecidableEq, Repr

/-- The freshly constructed server (`__init__`). -/
def initState : ServerState :=
  { clients := [], client_info := [], tasks := [], pending_tasks := [],
    start_time := none, total_completed_tasks := 0, total_failed_tasks := 0,
    latencies := [] }

/-- `register_client`: store the socket and the info record, then force
`status = "idle"` and `last_seen = now`.  An already-registered id is
overwritten in place. -/
def register_client (s : ServerState) (c : String) (name : String)
    (cores performance : Nat) (now : Nat) : ServerState :=
  { s with
    clients := if c ∈ s.clients then s.clients else s.clients ++ [c],
    client_info := alset s.client_info c
      { name := name, cores := cores, performance := performance,
        status := CStatus.idle, last_seen := now } }

/-- `unregister_client`: drop the socket and the info record; every task
that is `processing` and assigned to this client is requeued (status
`pending`, assignment cleared, id appended to the pending queue). -/
def unregister_client (s : ServerState) (c : String) : ServerState :=
  if c ∈ s.clients then
    let clients2 := s.clients.erase c
    if (alget s.client_info c).isSome then
      let requeued := (s.tasks.filter
        (fun p => p.2.assignedTo = some c ∧ p.2.status = TStatus.processing)).map Prod.fst
      { s with
        clients := clients2,
        tasks := almap (fun _ t =>
          if t.assignedTo = some c ∧ t.status = TStatus.processing then
            { t with status := TStatus.pending, assignedTo := none }
          else t) s.tasks,
        pending_tasks := s.pending_tasks ++ requeued,
        client_info := aldel s.client_info c }
    else { s with clients := clients2 }
  else s

/-- The ids of idle clients, in registration (insertion) order. -/
def idleOf (s : ServerState) : List String :=
  (s.client_info.filter (fun p => p.2.status = CStatus.idle)).map Prod.fst

/-- The `for task_id in list(self.pending_tasks)` loop of
`assign_pending_tasks`.  The first argument is the snapshot of the queue,
the second the mutable `idle_clients` list.  A failed send (or a missing
client record, which raises inside the same `try`) puts the worker back
at the tail of the idle list and commits nothing; a send that succeeds
commits the task and client updates and removes the task from the queue. -/
def assignLoop (sendOk : String → String → Bool) (now : Nat) :
    List String → List String → ServerState → ServerState
  | [], _, s => s
  | _ :: _, [], s => s
  | tid :: rest, c :: idleRest, s =>
    match alget s.tasks tid with
    | none => s
    | some t =>
      if sendOk c tid then
        let tasks2 := alset s.tasks tid
          { t with status := TStatus.processing, assignedTo := some c,
                   startTime := some now }
        match alget s.client_info c with
        | none =>
          -- the client-status write raises KeyError after the task write;
          -- the handler finds the client unregistered and drops it
          assignLoop sendOk now rest idleRest { s with tasks := tasks2 }
        | some ci =>
          if tid ∈ s.pending_tasks then
            assignLoop sendOk now rest idleRest
              { s with tasks := tasks2,
                       client_info := alset s.client_info c { ci with status := CStatus.computing },
                       pending_tasks := s.pending_tasks.erase tid }
          else
            -- pending_tasks.remove raises after the writes; the handler
            -- resets the client to idle and returns it to the pool
            assignLoop sendOk now rest (idleRest ++ [c])
              { s with tasks := tasks2,
                       client_info := alset s.client_info c { ci with status := CStatus.idle } }
      else
        match alget s.client_info c with
        | none => assignLoop sendOk now rest idleRest s
        | some ci =>
          assignLoop sendOk now rest (idleRest ++ [c])
            { s with client_info := alset s.client_info c { ci with status := CStatus.idle } }

/-- `assign_pending_tasks`: early return on an empty queue or no idle
client, otherwise run the dispatch loop over a snapshot of the queue. -/
def assign_pending_tasks (s : ServerState) (now : Nat)
    (sendOk : String → String → Bool) : ServerState :=
  if s.pending_tasks = [] then s
  else
    let idle := idleOf s
    if idle = [] then s
    else assignLoop sendOk now s.pending_tasks idle s

/-- `create_task`: insert a fresh `pending` task, append it to the queue,
then immediately try to assign pending tasks. -/
def create_task (s : ServerState) (ttype : String) (dims : Nat)
    (tid : String) (now : Nat) (sendOk : String → String → Bool) : ServerState :=
  let t : Task :=
    { id := tid, ttype := ttype, status := TStatus.pending, assignedTo := none,
      result := none, startTime := none, endTime := none,
      dimensions := dims, created := now }
  let s2 := { s with tasks := alset s.tasks tid t,
                     pending_tasks := s.pending_tasks ++ [tid] }
  assign_pending_tasks s2 now sendOk

/-- `handle_task_result`: unknown task or a sender that differs from
`assignedTo` is dropped; otherwise the task is completed, the client (if
still registered — a missing record raises after the task writes) is set
idle, the counters and latency history are updated and a dispatch pass
runs. -/
def handle_task_result (s : ServerState) (c tid : String) (result : Nat)
    (execution_time : Rat) (now : Nat) (sendOk : String → String → Bool) : ServerState :=
  match alget s.tasks tid with
  | none => s
  | some t =>
    if t.assignedTo = some c then
      let tasks2 := alset s.tasks tid
        { t with status := TStatus.completed, result := some result, endTime := some now }
      match alget s.client_info c with
      | none => { s with tasks := tasks2 }
      | some ci =>
        let s2 :=
          { s with tasks := tasks2,
                   client_info := alset s.client_info c
                     { ci with status := CStatus.idle, last_seen := now },
                   total_completed_tasks := s.total_completed_tasks + 1,
                   latencies := s.latencies ++ [execution_time] }
        assign_pending_tasks s2 now sendOk
    else s

/-- Inbound wire messages, with the fields `handle_client_message` reads
(`message.get` yields `Option` values). -/
inductive Msg where
  | register (name : Option String) (cores : Option Nat)
  | heartbeat
  | taskResult (task_id : Option String) (result : Option Nat) (execution_time : Option Rat)
  | error (task_id : Option String) (error_msg : Option String)

/-- `handle_client_message`: route one decoded message. -/
def handle_client_message (s : ServerState) (c : String) (m : Msg)
    (now : Nat) (sendOk : String → String → Bool) : ServerState :=
  match m with
  | Msg.register name cores =>
      register_client s c (name.getD "Unknown Client") (cores.getD 1) 0 now
  | Msg.heartbeat =>
      match alget s.client_info c with
      | none => s
      | some ci => { s with client_info := alset s.client_info c { ci with last_seen := now } }
  | Msg.taskResult task_id result execution_time =>
      match task_id with
      | none => s
      | some tid =>
        if tid ≠ "" then
          match result with
          | some r => handle_task_result s c tid r (execution_time.getD 0) now sendOk
          | none => s
        else s
  | Msg.error task_id _ =>
      match task_id with
      | none => s
      | some tid =>
        match alget s.tasks tid with
        | none => s
        | some t =>
          let s2 := { s with tasks := alset s.tasks tid { t with status := TStatus.failed },
                             total_failed_tasks := s.total_failed_tasks + 1 }
          match alget s2.client_info c with
          | none => s2
          | some ci =>
            { s2 with client_info := alset s2.client_info c { ci with status := CStatus.idle } }

/-- `self.latencies[-100:]`: the most recent at most 100 samples. -/
def last100 (s : ServerState) : List Rat :=
  s.latencies.drop (s.latencies.length - 100)

/-- The `avg_latency` expression of `broadcast_server_status`. -/
def averageLatency (s : ServerState) : Rat :=
  if s.latencies = [] then 0
  else (last100 s).sum / (max (last100 s).length 1 : Nat)

/-- The snapshot built by `broadcast_server_status`. -/
structure ServerStatus where
  running : Bool
  startTime : Option Nat
  totalCompletedTasks : Nat
  totalFailedTasks : Nat
  avgLatency : Rat
  clientList : List (String × ClientInfo)
  activeTasks : List Task
  deriving DecidableEq, Repr

/-- Build the status snapshot from a state. -/
def serverStatus (s : ServerState) : ServerStatus :=
  { running := (s.start_time).isSome,
    startTime := s.start_time,
    totalCompletedTasks := s.total_completed_tasks,
    totalFailedTasks := s.total_failed_tasks,
    avgLatency := averageLatency s,
    clientList := s.client_info,
    activeTasks := (s.tasks.filter (fun p =>
      p.2.status = TStatus.pending ∨ p.2.status = TStatus.processing)).map Prod.snd }

/-- The externally driven events of the coordinator: an inbound message on
a connection, task creation, a disconnect/timeout teardown, and a
standalone dispatch pass. -/
inductive Event where
  | message (c : String) (m : Msg) (now : Nat) (sendOk : String → String → Bool)
  | newTask (ttype : String) (dims : Nat) (tid : String) (now : Nat) (sendOk : String → String → Bool)
  | disconnect (c : String)
  | dispatch (now : Nat) (sendOk : String → String → Bool)

/-- One step of the coordinator. -/
def step (s : ServerState) : Event → ServerState
  | Event.message c m now ok => handle_client_message s c m now ok
  | Event.newTask ty d tid now ok => create_task s ty d tid now ok
  | Event.disconnect c => unregister_client s c
  | Event.dispatch now ok => assign_pending_tasks s now ok

/-- Well-formedness of an event: `uuid4` task ids are fresh. -/
def eventOk (s : ServerState) : Event → Prop
  | Event.newTask _ _ tid _ _ => alget s.tasks tid = none
  | _ => True

/-- States reachable from the fresh server by well-formed events. -/
inductive Reachable : ServerState → Prop
  | init : Reachable initState
  | next {s : ServerState} (e : Event) :
      Reachable s → eventOk s e → Reachable (step s e)

end JsonHarmony

namespace JsonHarmony

theorem alget_alset {β : Type} (m : AList β) (k : String) (v : β) (k2 : String) :
    alget (alset m k v) k2 = if k = k2 then some v else alget m k2 := by
  induction m with
  | nil => simp [alset, alget]
  | cons p rest ih =>
    obtain ⟨k3, v3⟩ := p
    by_cases h : k3 = k
    · subst h
      by_cases h2 : k3 = k2 <;> simp [alset, alget, h2]
    · by_cases h2 : k3 = k2
      · subst h2
        have h3 : ¬ (k = k3) := fun he => h he.symm
        simp [alset, alget, h, h3]
      · simp [alset, alget, h, h2, ih]

theorem alget_almap {β : Type} (f : String → β → β) (m : AList β) (k : String) :
    alget (almap f m) k = (alget m k).map (f k) := by
  induction m with
  | nil => simp [almap, alget]
  | cons p rest ih =>
    obtain ⟨k2, v⟩ := p
    by_cases h : k2 = k
    · subst h; simp [almap, alget]
    · simp [almap, alget, h] at ih ⊢
      exact ih

theorem alget_eq_none_iff {β : Type} (m : AList β) (k : String) :
    alget m k = none ↔ k ∉ alkeys m := by
  induction m with
  | nil => simp [alget, alkeys]
  | cons p rest ih =>
    obtain ⟨k2, v⟩ := p
    by_cases h : k2 = k
    · subst h; simp [alget, alkeys]
    · have h2 : ¬ k = k2 := fun he => h he.symm
      rw [show alkeys ((k2, v) :: rest) = k2 :: alkeys rest from rfl]
      simp [alget, h, List.mem_cons, h2, ih]

theorem isSome_alget_of_mem {β : Type} {m : AList β} {k : String} {v : β}
    (h : (k, v) ∈ m) : (alget m k).isSome := by
  induction m with
  | nil => simp at h
  | cons p rest ih =>
    obtain ⟨k2, v2⟩ := p
    by_cases h2 : k2 = k
    · simp [alget, h2]
    · rcases List.mem_cons.mp h with h3 | h3
      · exact absurd (congrArg Prod.fst h3).symm h2
      · simpa [alget, h2] using ih h3

theorem mem_of_alget {β : Type} {m : AList β} {k : String} {v : β}
    (h : alget m k = some v) : (k, v) ∈ m := by
  induction m with
  | nil => simp [alget] at h
  | cons p rest ih =>
    obtain ⟨k2, v2⟩ := p
    by_cases h2 : k2 = k
    · subst h2
      simp [alget] at h
      simp [h]
    · simp [alget, h2] at h
      exact List.mem_cons_of_mem _ (ih h)

theorem alget_of_mem_nodup {β : Type} {m : AList β} {k : String} {v : β}
    (hnd : (alkeys m).Nodup) (h : (k, v) ∈ m) : alget m k = some v := by
  induction m with
  | nil => simp at h
  | cons p rest ih =>
    obtain ⟨k2, v2⟩ := p
    rw [show alkeys ((k2, v2) :: rest) = k2 :: alkeys rest from rfl] at hnd
    rcases List.mem_cons.mp h with h3 | h3
    · injection h3 with hk hv
      subst hk; subst hv
      simp [alget]
    · have h4 : k2 ≠ k := by
        rintro rfl
        exact (List.nodup_cons.mp hnd).1 (List.mem_map_of_mem Prod.fst h3)
      simp only [alget, if_neg h4]
      exact ih (List.nodup_cons.mp hnd).2 h3

theorem alkeys_alset {β : Type} (m : AList β) (k : String) (v : β) :
    alkeys (alset m k v) = if k ∈ alkeys m then alkeys m else alkeys m ++ [k] := by
  induction m with
  | nil => simp [alset, alkeys]
  | cons p rest ih =>
    obtain ⟨k2, v2⟩ := p
    by_cases h : k2 = k
    · subst h; simp [alset, alkeys]
    · have h2 : ¬ k = k2 := fun he => h he.symm
      simp only [alset, if_neg h, alkeys, List.map_cons] at ih ⊢
      rw [ih]
      by_cases h3 : k ∈ List.map Prod.fst rest <;>
        simp [List.mem_cons, h2, h3]

theorem alkeys_almap {β : Type} (f : String → β → β) (m : AList β) :
    alkeys (almap f m) = alkeys m := by
  induction m with
  | nil => rfl
  | cons p rest ih =>
    simp [almap, alkeys]

theorem alset_eq_self {β : Type} {m : AList β} {k : String} {v : β}
    (h : alget m k = some v) : alset m k v = m := by
  induction m with
  | nil => simp [alget] at h
  | cons p rest ih =>
    obtain ⟨k2, v2⟩ := p
    by_cases h2 : k2 = k
    · subst h2
      simp [alget] at h
      simp [alset, h]
    · simp [alget, h2] at h
      simp [alset, h2, ih h]

theorem isSome_alget_of_mem_idleOf {s : ServerState} {c : String}
    (h : c ∈ idleOf s) : (alget s.client_info c).isSome := by
  simp only [idleOf, List.mem_map] at h
  obtain ⟨p, hp, rfl⟩ := h
  exact isSome_alget_of_mem (v := p.2) (by simpa using List.mem_of_mem_filter hp)

theorem alget_of_mem_idleOf {s : ServerState} {c : String}
    (hnd : (alkeys s.client_info).Nodup) (h : c ∈ idleOf s) :
    ∃ ci, alget s.client_info c = some ci ∧ ci.status = CStatus.idle := by
  simp only [idleOf, List.mem_map] at h
  obtain ⟨p, hp, rfl⟩ := h
  have hmem := List.mem_of_mem_filter hp
  have hprop := List.of_mem_filter hp
  refine ⟨p.2, alget_of_mem_nodup hnd ?_, by simpa using hprop⟩
  simpa using hmem

theorem idleOf_nodup {s : ServerState} (hnd : (alkeys s.client_info).Nodup) :
    (idleOf s).Nodup := by
  have hsub : List.Sublist (idleOf s) (alkeys s.client_info) :=
    List.Sublist.map Prod.fst (List.filter_sublist s.client_info)
  exact hnd.sublist hsub

end JsonHarmony

namespace JsonHarmony

theorem mem_alkeys_of_alget {β : Type} {m : AList β} {k : String} {v : β}
    (h : alget m k = some v) : k ∈ alkeys m := by
  by_contra hmem
  rw [← alget_eq_none_iff] at hmem
  simp [h] at hmem

theorem isSome_alget_alset {β : Type} {m : AList β} {k2 : String}
    (k : String) (v : β) (h : (alget m k2).isSome) :
    (alget (alset m k v) k2).isSome := by
  rw [alget_alset]
  by_cases he : k = k2 <;> simp [he, h]

/-- The dispatch loop leaves the socket list, start time, counters and
latency history untouched. -/
theorem assignLoop_const (sendOk : String → String → Bool) (now : Nat) :
    ∀ (ts cs : List String) (s : ServerState),
      (assignLoop sendOk now ts cs s).clients = s.clients ∧
      (assignLoop sendOk now ts cs s).start_time = s.start_time ∧
      (assignLoop sendOk now ts cs s).total_completed_tasks = s.total_completed_tasks ∧
      (assignLoop sendOk now ts cs s).total_failed_tasks = s.total_failed_tasks ∧
      (assignLoop sendOk now ts cs s).latencies = s.latencies := by
  intro ts
  induction ts with
  | nil => intro cs s; exact ⟨rfl, rfl, rfl, rfl, rfl⟩
  | cons tid rest ih =>
    intro cs s
    match cs with
    | [] => exact ⟨rfl, rfl, rfl, rfl, rfl⟩
    | c :: idleRest =>
      simp only [assignLoop]
      cases halget : alget s.tasks tid with
      | none => exact ⟨rfl, rfl, rfl, rfl, rfl⟩
      | some t =>
        by_cases hsend : sendOk c tid = true
        · simp only [hsend, if_true]
          cases hci : alget s.client_info c with
          | none => exact ih _ _
          | some ci =>
            by_cases hpend : tid ∈ s.pending_tasks
            · simp only [hpend, if_true]
              exact ih _ _
            · simp only [hpend, if_false]
              exact ih _ _
        · simp only [hsend, if_false]
          cases hci : alget s.client_info c with
          | none => exact ih _ _
          | some ci => exact ih _ _

/-- Tasks not in the queue snapshot are untouched by the dispatch loop. -/
theorem assignLoop_tasks_frame (sendOk : String → String → Bool) (now : Nat) :
    ∀ (ts cs : List String) (s : ServerState) (tid0 : String), tid0 ∉ ts →
      alget (assignLoop sendOk now ts cs s).tasks tid0 = alget s.tasks tid0 := by
  intro ts
  induction ts with
  | nil => intro cs s tid0 _; rfl
  | cons tid rest ih =>
    intro cs s tid0 hmem
    have hne : tid ≠ tid0 := fun he => hmem (he ▸ List.mem_cons_self tid rest)
    have hrest : tid0 ∉ rest := fun hr => hmem (List.mem_cons_of_mem _ hr)
    match cs with
    | [] => rfl
    | c :: idleRest =>
      simp only [assignLoop]
      cases halget : alget s.tasks tid with
      | none => rfl
      | some t =>
        by_cases hsend : sendOk c tid = true
        · simp only [hsend, if_true]
          cases hci : alget s.client_info c with
          | none =>
            rw [ih _ _ _ hrest]
            simp [alget_alset, hne]
          | some ci =>
            by_cases hpend : tid ∈ s.pending_tasks
            · simp only [hpend, if_true]
              rw [ih _ _ _ hrest]
              simp [alget_alset, hne]
            · simp only [hpend, if_false]
              rw [ih _ _ _ hrest]
              simp [alget_alset, hne]
        · simp only [hsend, if_false]
          cases hci : alget s.client_info c with
          | none => exact ih _ _ _ hrest
          | some ci => exact ih _ _ _ hrest

/-- Clients not in the idle pool are untouched by the dispatch loop. -/
theorem assignLoop_info_frame (sendOk : String → String → Bool) (now : Nat) :
    ∀ (ts cs : List String) (s : ServerState) (c0 : String), c0 ∉ cs →
      alget (assignLoop sendOk now ts cs s).client_info c0 = alget s.client_info c0 := by
  intro ts
  induction ts with
  | nil => intro cs s c0 _; rfl
  | cons tid rest ih =>
    intro cs s c0 hmem
    match cs with
    | [] => rfl
    | c :: idleRest =>
      have hne : c ≠ c0 := fun he => hmem (he ▸ List.mem_cons_self c idleRest)
      have hrest : c0 ∉ idleRest := fun hr => hmem (List.mem_cons_of_mem _ hr)
      have hne2 : ¬ c0 = c := fun he => hne he.symm
      have hrest2 : c0 ∉ idleRest ++ [c] := by
        simp [List.mem_append, hrest, hne2]
      simp only [assignLoop]
      cases halget : alget s.tasks tid with
      | none => rfl
      | some t =>
        by_cases hsend : sendOk c tid = true
        · simp only [hsend, if_true]
          cases hci : alget s.client_info c with
          | none => exact ih _ _ _ hrest
          | some ci =>
            by_cases hpend : tid ∈ s.pending_tasks
            · simp only [hpend, if_true]
              rw [ih _ _ _ hrest]
              simp [alget_alset, hne]
            · simp only [hpend, if_false]
              rw [ih _ _ _ hrest2]
              simp [alget_alset, hne]
        · simp only [hsend, if_false]
          cases hci : alget s.client_info c with
          | none => exact ih _ _ _ hrest
          | some ci =>
            refine (ih (idleRest ++ [c])
              { s with client_info := alset s.client_info c { ci with status := CStatus.idle } }
              c0 hrest2).trans ?_
            simp [alget_alset, hne]

end JsonHarmony

namespace JsonHarmony

/-- The inductive invariant of the task store and pending queue: a
processing task has an assignee, every pending task is queued, every
queued id names an existing unassigned task that is pending or failed
(an error naming a queued task marks it failed without dequeuing it),
the queue has no duplicates, and task keys are unique. -/
structure Inv (tasks : AList Task) (pending : List String) : Prop where
  proc_assigned : ∀ tid t, alget tasks tid = some t →
    t.status = TStatus.processing → t.assignedTo ≠ none
  pending_mem : ∀ tid t, alget tasks tid = some t →
    t.status = TStatus.pending → tid ∈ pending
  queue_ok : ∀ tid ∈ pending, ∃ t, alget tasks tid = some t ∧
    (t.status = TStatus.pending ∨ t.status = TStatus.failed) ∧ t.assignedTo = none
  queue_nodup : pending.Nodup
  keys_nodup : (alkeys tasks).Nodup

/-- The invariant read off a server state. -/
abbrev InvS (s : ServerState) : Prop := Inv s.tasks s.pending_tasks

theorem inv_set_task {tasks : AList Task} {pending : List String} {tid : String} {t : Task}
    (hI : Inv tasks pending) (halget : alget tasks tid = some t) (t2 : Task)
    (hproc : t2.status = TStatus.processing → t2.assignedTo ≠ none)
    (hpend2 : t2.status ≠ TStatus.pending)
    (hnq : tid ∉ pending) :
    Inv (alset tasks tid t2) pending := by
  constructor
  · intro tid0 t0 h0 hst
    rw [alget_alset] at h0
    by_cases he : tid = tid0
    · rw [if_pos he] at h0
      injection h0 with h0
      subst h0
      exact hproc hst
    · rw [if_neg he] at h0
      exact hI.proc_assigned tid0 t0 h0 hst
  · intro tid0 t0 h0 hst
    rw [alget_alset] at h0
    by_cases he : tid = tid0
    · rw [if_pos he] at h0
      injection h0 with h0
      subst h0
      exact absurd hst hpend2
    · rw [if_neg he] at h0
      exact hI.pending_mem tid0 t0 h0 hst
  · intro tid0 hmem
    have hne : tid ≠ tid0 := fun he => hnq (he ▸ hmem)
    obtain ⟨t1, hget1, hst1, has1⟩ := hI.queue_ok tid0 hmem
    exact ⟨t1, by rw [alget_alset, if_neg hne]; exact hget1, hst1, has1⟩
  · exact hI.queue_nodup
  · rw [alkeys_alset, if_pos (mem_alkeys_of_alget halget)]
    exact hI.keys_nodup

theorem inv_set_task_dequeue {tasks : AList Task} {pending : List String} {tid : String} {t : Task}
    (hI : Inv tasks pending) (halget : alget tasks tid = some t) (t2 : Task)
    (hproc : t2.status = TStatus.processing → t2.assignedTo ≠ none)
    (hpend2 : t2.status ≠ TStatus.pending) :
    Inv (alset tasks tid t2) (pending.erase tid) := by
  constructor
  · intro tid0 t0 h0 hst
    rw [alget_alset] at h0
    by_cases he : tid = tid0
    · rw [if_pos he] at h0
      injection h0 with h0
      subst h0
      exact hproc hst
    · rw [if_neg he] at h0
      exact hI.proc_assigned tid0 t0 h0 hst
  · intro tid0 t0 h0 hst
    rw [alget_alset] at h0
    by_cases he : tid = tid0
    · rw [if_pos he] at h0
      injection h0 with h0
      subst h0
      exact absurd hst hpend2
    · rw [if_neg he] at h0
      exact (List.mem_erase_of_ne (fun h2 => he h2.symm)).mpr
        (hI.pending_mem tid0 t0 h0 hst)
  · intro tid0 hmem
    obtain ⟨hne, hmem2⟩ := (hI.queue_nodup.mem_erase_iff).mp hmem
    obtain ⟨t1, hget1, hst1, has1⟩ := hI.queue_ok tid0 hmem2
    exact ⟨t1, by rw [alget_alset, if_neg (fun h2 => hne h2.symm)]; exact hget1, hst1, has1⟩
  · exact hI.queue_nodup.erase tid
  · rw [alkeys_alset, if_pos (mem_alkeys_of_alget halget)]
    exact hI.keys_nodup

theorem inv_fail {tasks : AList Task} {pending : List String} {tid : String} {t : Task}
    (hI : Inv tasks pending) (halget : alget tasks tid = some t) :
    Inv (alset tasks tid { t with status := TStatus.failed }) pending := by
  constructor
  · intro tid0 t0 h0 hst
    rw [alget_alset] at h0
    by_cases he : tid = tid0
    · rw [if_pos he] at h0
      injection h0 with h0
      subst h0
      simp at hst
    · rw [if_neg he] at h0
      exact hI.proc_assigned tid0 t0 h0 hst
  · intro tid0 t0 h0 hst
    rw [alget_alset] at h0
    by_cases he : tid = tid0
    · rw [if_pos he] at h0
      injection h0 with h0
      subst h0
      simp at hst
    · rw [if_neg he] at h0
      exact hI.pending_mem tid0 t0 h0 hst
  · intro tid0 hmem
    obtain ⟨t1, hget1, hst1, has1⟩ := hI.queue_ok tid0 hmem
    by_cases he : tid = tid0
    · subst he
      rw [halget] at hget1
      injection hget1 with h1
      subst h1
      refine ⟨{ t with status := TStatus.failed }, ?_, Or.inr rfl, has1⟩
      rw [alget_alset, if_pos rfl]
    · exact ⟨t1, by rw [alget_alset, if_neg he]; exact hget1, hst1, has1⟩
  · exact hI.queue_nodup
  · rw [alkeys_alset, if_pos (mem_alkeys_of_alget halget)]
    exact hI.keys_nodup

theorem inv_create {tasks : AList Task} {pending : List String} {tid : String}
    (hI : Inv tasks pending) (hfresh : alget tasks tid = none) (t2 : Task)
    (h2s : t2.status = TStatus.pending) (h2a : t2.assignedTo = none) :
    Inv (alset tasks tid t2) (pending ++ [tid]) := by
  have hnq : tid ∉ pending := by
    intro hmem
    obtain ⟨t1, hget1, _, _⟩ := hI.queue_ok tid hmem
    rw [hfresh] at hget1
    cases hget1
  constructor
  · intro tid0 t0 h0 hst
    rw [alget_alset] at h0
    by_cases he : tid = tid0
    · rw [if_pos he] at h0
      injection h0 with h0
      subst h0
      rw [h2s] at hst
      cases hst
    · rw [if_neg he] at h0
      exact hI.proc_assigned tid0 t0 h0 hst
  · intro tid0 t0 h0 hst
    rw [alget_alset] at h0
    by_cases he : tid = tid0
    · subst he
      exact List.mem_append_right _ (List.mem_singleton.mpr rfl)
    · rw [if_neg he] at h0
      exact List.mem_append_left _ (hI.pending_mem tid0 t0 h0 hst)
  · intro tid0 hmem
    rcases List.mem_append.mp hmem with hl | hr
    · have hne : tid ≠ tid0 := fun he => hnq (he ▸ hl)
      obtain ⟨t1, hget1, hst1, has1⟩ := hI.queue_ok tid0 hl
      exact ⟨t1, by rw [alget_alset, if_neg hne]; exact hget1, hst1, has1⟩
    · have he : tid0 = tid := List.mem_singleton.mp hr
      subst he
      exact ⟨t2, by rw [alget_alset, if_pos rfl], Or.inl h2s, h2a⟩
  · rw [List.nodup_append]
    exact ⟨hI.queue_nodup, List.nodup_singleton tid,
      fun a ha hb => hnq ((List.mem_singleton.mp hb) ▸ ha)⟩
  · rw [alkeys_alset, if_neg ((alget_eq_none_iff tasks tid).mp hfresh)]
    rw [List.nodup_append]
    exact ⟨hI.keys_nodup, List.nodup_singleton tid,
      fun a ha hb => ((alget_eq_none_iff tasks tid).mp hfresh) ((List.mem_singleton.mp hb) ▸ ha)⟩

theorem inv_requeue {tasks : AList Task} {pending : List String} (c : String)
    (hI : Inv tasks pending) :
    Inv (almap (fun _ t =>
          if t.assignedTo = some c ∧ t.status = TStatus.processing then
            { t with status := TStatus.pending, assignedTo := none }
          else t) tasks)
        (pending ++ (tasks.filter
          (fun p => p.2.assignedTo = some c ∧ p.2.status = TStatus.processing)).map Prod.fst) := by
  constructor
  · intro tid0 t0 h0 hst
    rw [alget_almap] at h0
    simp only [Option.map_eq_some'] at h0
    obtain ⟨t, hget, hft⟩ := h0
    by_cases hc : t.assignedTo = some c ∧ t.status = TStatus.processing
    · rw [if_pos hc] at hft
      subst hft
      simp at hst
    · rw [if_neg hc] at hft
      subst hft
      exact hI.proc_assigned tid0 t hget hst
  · intro tid0 t0 h0 hst
    rw [alget_almap] at h0
    simp only [Option.map_eq_some'] at h0
    obtain ⟨t, hget, hft⟩ := h0
    by_cases hc : t.assignedTo = some c ∧ t.status = TStatus.processing
    · rw [if_pos hc] at hft
      refine List.mem_append_right _ (List.mem_map.mpr ⟨(tid0, t), ?_, rfl⟩)
      refine List.mem_filter.mpr ⟨mem_of_alget hget, ?_⟩
      simp [hc.1, hc.2]
    · rw [if_neg hc] at hft
      subst hft
      exact List.mem_append_left _ (hI.pending_mem tid0 t hget hst)
  · intro tid0 hmem
    rcases List.mem_append.mp hmem with hl | hr
    · obtain ⟨t1, hget1, hst1, has1⟩ := hI.queue_ok tid0 hl
      have hc : ¬ (t1.assignedTo = some c ∧ t1.status = TStatus.processing) := by
        rintro ⟨ha, hs⟩
        rcases hst1 with h | h <;> rw [h] at hs <;> cases hs
      refine ⟨t1, ?_, hst1, has1⟩
      rw [alget_almap, hget1, Option.map_some', if_neg hc]
    · obtain ⟨p, hpf, hfst⟩ := List.mem_map.mp hr
      have hpm : p ∈ tasks := List.mem_of_mem_filter hpf
      have hpc := List.of_mem_filter hpf
      simp only [decide_eq_true_eq] at hpc
      have hget : alget tasks tid0 = some p.2 := by
        apply alget_of_mem_nodup hI.keys_nodup
        rw [← hfst]
        simpa using hpm
      refine ⟨{ p.2 with status := TStatus.pending, assignedTo := none }, ?_, Or.inl rfl, rfl⟩
      rw [alget_almap, hget, Option.map_some', if_pos hpc]
  · rw [List.nodup_append]
    refine ⟨hI.queue_nodup, ?_, ?_⟩
    · exact hI.keys_nodup.sublist (List.Sublist.map Prod.fst (List.filter_sublist tasks))
    · intro a ha hb
      obtain ⟨t1, hget1, hst1, _⟩ := hI.queue_ok a ha
      obtain ⟨p, hpf, hfst⟩ := List.mem_map.mp hb
      have hpc := List.of_mem_filter hpf
      simp only [decide_eq_true_eq] at hpc
      have hget2 : alget tasks a = some p.2 := by
        apply alget_of_mem_nodup hI.keys_nodup
        rw [← hfst]
        simpa using (List.mem_of_mem_filter hpf)
      rw [hget1] at hget2
      injection hget2 with h2
      rw [← h2] at hpc
      rcases hst1 with h | h <;> rw [h] at hpc <;> cases hpc.2
  · rw [alkeys_almap]
    exact hI.keys_nodup

end JsonHarmony

namespace JsonHarmony

/-- The dispatch loop preserves the invariant whenever every client in the
idle pool has a registry record (true of the pool `assign_pending_tasks`
builds). -/
theorem invS_assignLoop (sendOk : String → String → Bool) (now : Nat) :
    ∀ (ts cs : List String) (s : ServerState), InvS s →
      (∀ c0 ∈ cs, (alget s.client_info c0).isSome) →
      InvS (assignLoop sendOk now ts cs s) := by
  intro ts
  induction ts with
  | nil => intro cs s hI _; exact hI
  | cons tid rest ih =>
    intro cs s hI hcs
    match cs with
    | [] => exact hI
    | c :: idleRest =>
      have hcSome : (alget s.client_info c).isSome := hcs c (List.mem_cons_self _ _)
      simp only [assignLoop]
      cases halget : alget s.tasks tid with
      | none => exact hI
      | some t =>
        by_cases hsend : sendOk c tid = true
        · simp only [hsend, if_true]
          cases hci : alget s.client_info c with
          | none => rw [hci] at hcSome; cases hcSome
          | some ci =>
            by_cases hpend : tid ∈ s.pending_tasks
            · simp only [hpend, if_true]
              apply ih
              · exact inv_set_task_dequeue hI halget _
                  (fun _ => by simp) (by simp)
              · intro c0 hc0
                exact isSome_alget_alset _ _ (hcs c0 (List.mem_cons_of_mem _ hc0))
            · simp only [hpend, if_false]
              apply ih
              · exact inv_set_task hI halget _
                  (fun _ => by simp) (by simp) hpend
              · intro c0 hc0
                rcases List.mem_append.mp hc0 with h | h
                · exact isSome_alget_alset _ _ (hcs c0 (List.mem_cons_of_mem _ h))
                · rw [List.mem_singleton.mp h]
                  exact isSome_alget_alset _ _ hcSome
        · simp only [hsend, if_false]
          cases hci : alget s.client_info c with
          | none => rw [hci] at hcSome; cases hcSome
          | some ci =>
            apply ih
            · exact hI
            · intro c0 hc0
              rcases List.mem_append.mp hc0 with h | h
              · exact isSome_alget_alset _ _ (hcs c0 (List.mem_cons_of_mem _ h))
              · rw [List.mem_singleton.mp h]
                exact isSome_alget_alset _ _ hcSome

/-- `assign_pending_tasks` preserves the invariant. -/
theorem invS_assign {s : ServerState} {now : Nat} {sendOk : String → String → Bool}
    (hI : InvS s) : InvS (assign_pending_tasks s now sendOk) := by
  unfold assign_pending_tasks
  by_cases h1 : s.pending_tasks = []
  · rw [if_pos h1]; exact hI
  · rw [if_neg h1]
    by_cases h2 : idleOf s = []
    · simp only [h2, if_pos]
      exact hI
    · simp only [h2, if_neg, reduceIte]
      apply invS_assignLoop sendOk now s.pending_tasks (idleOf s) s hI
      intro c0 hc0
      exact isSome_alget_of_mem_idleOf hc0

/-- `handle_task_result` preserves the invariant. -/
theorem invS_handle_result {s : ServerState} {c tid : String} {r : Nat}
    {et : Rat} {now : Nat} {sendOk : String → String → Bool}
    (hI : InvS s) : InvS (handle_task_result s c tid r et now sendOk) := by
  unfold handle_task_result
  split
  next halget => exact hI
  next t halget =>
    by_cases hass : t.assignedTo = some c
    · rw [if_pos hass]
      have hnq : tid ∉ s.pending_tasks := by
        intro hmem
        obtain ⟨t1, hget1, _, has1⟩ := hI.queue_ok tid hmem
        rw [halget] at hget1
        injection hget1 with h1
        rw [← h1, hass] at has1
        cases has1
      cases hci : alget s.client_info c with
      | none =>
        exact inv_set_task hI halget _ (by simp) (by simp) hnq
      | some ci =>
        exact invS_assign (inv_set_task hI halget _ (by simp) (by simp) hnq)
    · rw [if_neg hass]
      exact hI

/-- `handle_client_message` preserves the invariant. -/
theorem invS_handle_msg {s : ServerState} {c : String} {m : Msg} {now : Nat}
    {sendOk : String → String → Bool}
    (hI : InvS s) : InvS (handle_client_message s c m now sendOk) := by
  cases m with
  | register name cores => exact hI
  | heartbeat =>
    simp only [handle_client_message]
    cases hci : alget s.client_info c with
    | none => exact hI
    | some ci => exact hI
  | taskResult task_id result execution_time =>
    simp only [handle_client_message]
    split
    · exact hI
    · split
      · split
        · exact invS_handle_result hI
        · exact hI
      · exact hI
  | error task_id error_msg =>
    simp only [handle_client_message]
    split
    · exact hI
    · split
      next tid _ halget2 => exact hI
      next tid _ t halget =>
        split
        · exact inv_fail hI halget
        · exact inv_fail hI halget

/-- `create_task` preserves the invariant for a fresh task id. -/
theorem invS_create {s : ServerState} {ttype : String} {dims : Nat} {tid : String}
    {now : Nat} {sendOk : String → String → Bool}
    (hI : InvS s) (hfresh : alget s.tasks tid = none) :
    InvS (create_task s ttype dims tid now sendOk) := by
  unfold create_task
  exact invS_assign (inv_create hI hfresh _ rfl rfl)

/-- `unregister_client` preserves the invariant. -/
theorem invS_unregister {s : ServerState} {c : String}
    (hI : InvS s) : InvS (unregister_client s c) := by
  unfold unregister_client
  by_cases h1 : c ∈ s.clients
  · rw [if_pos h1]
    by_cases h2 : (alget s.client_info c).isSome
    · simp only [h2, if_pos, reduceIte]
      exact inv_requeue c hI
    · simp only [h2, if_neg, reduceIte]
      exact hI
  · rw [if_neg h1]
    exact hI

/-- Every event preserves the invariant. -/
theorem invS_step {s : ServerState} {e : Event}
    (hI : InvS s) (hok : eventOk s e) : InvS (step s e) := by
  cases e with
  | message c m now ok => exact invS_handle_msg hI
  | newTask ty d tid now ok => exact invS_create hI hok
  | disconnect c => exact invS_unregister hI
  | dispatch now ok => exact invS_assign hI

/-- The invariant holds initially. -/
theorem invS_init : InvS initState := by
  constructor
  · intro tid t h
    simp [initState, alget] at h
  · intro tid t h
    simp [initState, alget] at h
  · intro tid h
    simp [initState] at h
  · simp [initState]
  · simp [initState, alkeys]

/-- The invariant holds in every reachable state. -/
theorem invS_reachable {s : ServerState} (h : Reachable s) : InvS s := by
  induction h with
  | init => exact invS_init
  | next e hr hok ih => exact invS_step ih hok

end JsonHarmony

namespace JsonHarmony

/-- When every send fails, the dispatch loop commits nothing, provided
every pooled client is registered and idle (as the pool built by
`assign_pending_tasks` is). -/
theorem assignLoop_allfail (now : Nat) :
    ∀ (ts cs : List String) (s : ServerState),
      (∀ c0 ∈ cs, ∃ ci, alget s.client_info c0 = some ci ∧ ci.status = CStatus.idle) →
      assignLoop (fun _ _ => false) now ts cs s = s := by
  intro ts
  induction ts with
  | nil => intro cs s _; rfl
  | cons tid rest ih =>
    intro cs s hcs
    match cs with
    | [] => rfl
    | c :: idleRest =>
      obtain ⟨ci, hci, hidle⟩ := hcs c (List.mem_cons_self _ _)
      simp only [assignLoop]
      split
      next halget => rfl
      next t halget =>
        rw [if_neg (by simp)]
        split
        next hci2 => rw [hci2] at hci; cases hci
        next ci2 hci2 =>
          rw [hci2] at hci
          injection hci with hcieq
          subst hcieq
          have heq : ({ ci2 with status := CStatus.idle } : ClientInfo) = ci2 := by
            obtain ⟨n, co, pf, st, ls⟩ := ci2
            simp only at hidle
            subst hidle
            rfl
          rw [heq, alset_eq_self hci2]
          apply ih
          intro c0 hc0
          rcases List.mem_append.mp hc0 with h | h
          · exact hcs c0 (List.mem_cons_of_mem _ h)
          · rw [List.mem_singleton.mp h]
            exact ⟨ci2, hci2, hidle⟩

/-- No task is lost by the dispatch loop: a task that was queued or
processing is still queued or processing afterwards. -/
theorem assignLoop_no_loss (sendOk : String → String → Bool) (now : Nat) :
    ∀ (ts cs : List String) (s : ServerState) (tid0 : String),
      (tid0 ∈ s.pending_tasks ∨
        ∃ t, alget s.tasks tid0 = some t ∧ t.status = TStatus.processing) →
      (tid0 ∈ (assignLoop sendOk now ts cs s).pending_tasks ∨
        ∃ t, alget (assignLoop sendOk now ts cs s).tasks tid0 = some t ∧
          t.status = TStatus.processing) := by
  intro ts
  induction ts with
  | nil => intro cs s tid0 h; exact h
  | cons tid rest ih =>
    intro cs s tid0 h
    match cs with
    | [] => exact h
    | c :: idleRest =>
      simp only [assignLoop]
      split
      next halget => exact h
      next t halget =>
        by_cases hsend : sendOk c tid = true
        · simp only [hsend, if_true]
          cases hci : alget s.client_info c with
          | none =>
            apply ih
            rcases h with hl | ⟨t1, hget1, hst1⟩
            · exact Or.inl hl
            · right
              by_cases he : tid = tid0
              · exact ⟨_, by rw [alget_alset, if_pos he], rfl⟩
              · exact ⟨t1, by rw [alget_alset, if_neg he]; exact hget1, hst1⟩
          | some ci =>
            by_cases hpend : tid ∈ s.pending_tasks
            · simp only [hpend, if_true]
              apply ih
              rcases h with hl | ⟨t1, hget1, hst1⟩
              · by_cases he : tid = tid0
                · right
                  exact ⟨_, by rw [alget_alset, if_pos he], rfl⟩
                · left
                  exact (List.mem_erase_of_ne (fun h2 => he h2.symm)).mpr hl
              · right
                by_cases he : tid = tid0
                · exact ⟨_, by rw [alget_alset, if_pos he], rfl⟩
                · exact ⟨t1, by rw [alget_alset, if_neg he]; exact hget1, hst1⟩
            · simp only [hpend, if_false]
              apply ih
              rcases h with hl | ⟨t1, hget1, hst1⟩
              · exact Or.inl hl
              · right
                by_cases he : tid = tid0
                · exact ⟨_, by rw [alget_alset, if_pos he], rfl⟩
                · exact ⟨t1, by rw [alget_alset, if_neg he]; exact hget1, hst1⟩
        · simp only [hsend, if_false]
          cases hci : alget s.client_info c with
          | none => exact ih _ _ _ h
          | some ci => exact ih _ _ _ h

end JsonHarmony

namespace JsonHarmony

/-- One dispatch pass with every send succeeding: with the queue equal to
`ts` (no duplicates) and at least as many pooled clients `cs` (no
duplicates, all registered), the loop empties the queue and assigns the
i-th queued task to the i-th pooled client. -/
theorem assignLoop_allok (now : Nat) :
    ∀ (ts cs : List String) (s : ServerState),
      s.pending_tasks = ts → ts.Nodup → cs.Nodup → ts.length ≤ cs.length →
      (∀ tid2 ∈ ts, (alget s.tasks tid2).isSome) →
      (∀ c0 ∈ cs, (alget s.client_info c0).isSome) →
      (assignLoop (fun _ _ => true) now ts cs s).pending_tasks = [] ∧
      (∀ p ∈ ts.zip cs, ∃ t, alget s.tasks p.1 = some t ∧
        alget (assignLoop (fun _ _ => true) now ts cs s).tasks p.1 =
          some { t with status := TStatus.processing, assignedTo := some p.2,
                        startTime := some now } ∧
        ∃ ci, alget s.client_info p.2 = some ci ∧
          alget (assignLoop (fun _ _ => true) now ts cs s).client_info p.2 =
            some { ci with status := CStatus.computing }) := by
  intro ts
  induction ts with
  | nil =>
    intro cs s hp _ _ _ _ _
    exact ⟨hp, fun p hp2 => by simp at hp2⟩
  | cons tid rest ih =>
    intro cs s hp hnd hcnd hlen htasks hcs
    match cs with
    | [] => simp at hlen
    | c :: idleRest =>
      obtain ⟨t, ht⟩ := Option.isSome_iff_exists.mp (htasks tid (List.mem_cons_self _ _))
      obtain ⟨ci, hci⟩ := Option.isSome_iff_exists.mp (hcs c (List.mem_cons_self _ _))
      have htid_rest : tid ∉ rest := (List.nodup_cons.mp hnd).1
      have hnd2 : rest.Nodup := (List.nodup_cons.mp hnd).2
      have hc_not : c ∉ idleRest := (List.nodup_cons.mp hcnd).1
      have hcnd2 : idleRest.Nodup := (List.nodup_cons.mp hcnd).2
      have hlen2 : rest.length ≤ idleRest.length := by
        simpa using Nat.succ_le_succ_iff.mp (by simpa using hlen)
      have hmem : tid ∈ s.pending_tasks := by
        rw [hp]; exact List.mem_cons_self _ _
      have htasks2 : ∀ tid2 ∈ rest,
          (alget (alset s.tasks tid
            { t with status := TStatus.processing, assignedTo := some c,
                     startTime := some now }) tid2).isSome :=
        fun tid2 h2 =>
          isSome_alget_alset _ _ (htasks tid2 (List.mem_cons_of_mem _ h2))
      have hcs2 : ∀ c0 ∈ idleRest,
          (alget (alset s.client_info c { ci with status := CStatus.computing }) c0).isSome :=
        fun c0 h2 => isSome_alget_alset _ _ (hcs c0 (List.mem_cons_of_mem _ h2))
      obtain ⟨ihpend, ihzip⟩ := ih idleRest
        { s with
          tasks := alset s.tasks tid
            { t with status := TStatus.processing, assignedTo := some c,
                     startTime := some now },
          client_info := alset s.client_info c { ci with status := CStatus.computing },
          pending_tasks := rest }
        rfl hnd2 hcnd2 hlen2 htasks2 hcs2
      have hp_erase : s.pending_tasks.erase tid = rest := by
        rw [hp, List.erase_cons_head]
      simp only [assignLoop, ht, hci, hmem, if_true, hp_erase]
      refine ⟨ihpend, ?_⟩
      intro p hpz
      obtain ⟨a, b⟩ := p
      simp only [List.zip_cons_cons, List.mem_cons] at hpz
      rcases hpz with heq | hpz2
      · injection heq with ha hb
        subst ha; subst hb
        refine ⟨t, ht, ?_, ci, hci, ?_⟩
        · refine (assignLoop_tasks_frame _ _ rest idleRest _ a htid_rest).trans ?_
          rw [alget_alset, if_pos rfl]
        · refine (assignLoop_info_frame _ _ rest idleRest _ b hc_not).trans ?_
          rw [alget_alset, if_pos rfl]
      · obtain ⟨t2, hget2, hfin2, ci2, hget2c, hfin2c⟩ := ihzip (a, b) hpz2
        obtain ⟨hamem, hbmem⟩ := List.of_mem_zip hpz2
        have hne_t : tid ≠ a := fun he => htid_rest (he ▸ hamem)
        have hne_c : c ≠ b := fun he => hc_not (he ▸ hbmem)
        have h3 : alget (alset s.tasks tid
            { t with status := TStatus.processing, assignedTo := some c,
                     startTime := some now }) a = alget s.tasks a := by
          rw [alget_alset, if_neg hne_t]
        have h4 : alget (alset s.client_info c
            { ci with status := CStatus.computing }) b = alget s.client_info b := by
          rw [alget_alset, if_neg hne_c]
        exact ⟨t2, h3.symm.trans hget2, hfin2, ci2, h4.symm.trans hget2c, hfin2c⟩

end JsonHarmony

namespace JsonHarmony

/-- Send oracle with every send succeeding. -/
def okAll : String → String → Bool := fun _ _ => true

/-- Trace for C1: register `c1`, create task `A` (dispatched to `c1`),
then `c1` reports a result. -/
def c1s1 : ServerState := step initState (Event.message "c1" (Msg.register none none) 0 okAll)

def c1s2 : ServerState := step c1s1 (Event.newTask "dot" 0 "A" 1 okAll)

def c1s3 : ServerState :=
  step c1s2 (Event.message "c1" (Msg.taskResult (some "A") (some 7) (some 5)) 2 okAll)

/-- The processing task of `c1s2`, as a record. -/
def c1task : Task :=
  { id := "A", ttype := "dot", status := TStatus.processing, assignedTo := some "c1",
    result := none, startTime := some 1, endTime := none, dimensions := 0, created := 1 }

/-- C1 counterexample: in the reachable state after a completed result,
task `A` is not `processing` yet its `assignedTo` is still `"c1"`, so
`status == processing ⇔ assignedTo != null` fails (completion never
clears the assignment). -/
theorem c1_cex :
    Reachable c1s3 ∧
    (alget c1s3.tasks "A").map Task.status = some TStatus.completed ∧
    (alget c1s3.tasks "A").bind Task.assignedTo = some "c1" := by
  have h1 : Reachable c1s1 := Reachable.next _ Reachable.init trivial
  have h2 : Reachable c1s2 := Reachable.next _ h1 (show alget c1s1.tasks "A" = none by decide)
  exact ⟨Reachable.next _ h2 trivial, by decide, by decide⟩

/-- C1 (amended): in every reachable state the forward direction holds:
a task with status `processing` has a non-null `assignedTo`.  (The
converse direction is refuted by `c1_cex`: completed and failed tasks
retain their last assignee.) -/
theorem c1_processing_has_assignee {s : ServerState} {tid : String} {t : Task}
    (hreach : Reachable s) (hget : alget s.tasks tid = some t)
    (hst : t.status = TStatus.processing) : t.assignedTo ≠ none :=
  (invS_reachable hreach).proc_assigned tid t hget hst

/-- C1 witness: the theorem applied at the concrete reachable state
`c1s2` and its processing task `A`. -/
theorem c1_witness :
    Reachable c1s2 ∧ alget c1s2.tasks "A" = some c1task ∧
    c1task.status = TStatus.processing ∧ c1task.assignedTo ≠ none := by
  have h1 : Reachable c1s1 := Reachable.next _ Reachable.init trivial
  have h2 : Reachable c1s2 := Reachable.next _ h1 (show alget c1s1.tasks "A" = none by decide)
  exact ⟨h2, by decide, by decide,
    @c1_processing_has_assignee c1s2 "A" c1task h2 (by decide) (by decide)⟩

/-- Trace for C3: create task `A` with no clients connected, then an
error message names `A`. -/
def c3s1 : ServerState := step initState (Event.newTask "dot" 0 "A" 0 okAll)

def c3s2 : ServerState :=
  step c3s1 (Event.message "cX" (Msg.error (some "A") (some "boom")) 1 okAll)

/-- C3 counterexample: after an error message names the pending task `A`,
the reachable state keeps `A` in the pending queue although its status is
`failed`, so the queue does not contain exactly the pending tasks. -/
theorem c3_cex :
    Reachable c3s2 ∧ "A" ∈ c3s2.pending_tasks ∧
    (alget c3s2.tasks "A").map Task.status = some TStatus.failed := by
  have h1 : Reachable c3s1 := Reachable.next _ Reachable.init (show alget initState.tasks "A" = none by decide)
  exact ⟨Reachable.next _ h1 trivial, by decide, by decide⟩

/-- The idle pool only reads the registry, so task/queue updates leave
it unchanged. -/
theorem idleOf_set_tasks_pending (s : ServerState) (tk : AList Task) (pd : List String) :
    idleOf { s with tasks := tk, pending_tasks := pd } = idleOf s := rfl

/-- With no idle worker a dispatch pass changes nothing. -/
theorem assign_noidle {s : ServerState} {now : Nat} {ok : String → String → Bool}
    (h : idleOf s = []) : assign_pending_tasks s now ok = s := by
  unfold assign_pending_tasks
  by_cases h1 : s.pending_tasks = []
  · rw [if_pos h1]
  · rw [if_neg h1, if_pos h]

/-- The dispatch loop only removes queue entries; the relative order of
the remaining entries is preserved. -/
theorem assignLoop_pending_sublist (sendOk : String → String → Bool) (now : Nat) :
    ∀ (ts cs : List String) (s : ServerState),
      List.Sublist (assignLoop sendOk now ts cs s).pending_tasks s.pending_tasks := by
  intro ts
  induction ts with
  | nil => intro cs s; exact List.Sublist.refl _
  | cons tid rest ih =>
    intro cs s
    match cs with
    | [] => exact List.Sublist.refl _
    | c :: idleRest =>
      simp only [assignLoop]
      split
      next => exact List.Sublist.refl _
      next t halget =>
        by_cases hsend : sendOk c tid = true
        · simp only [hsend, if_true]
          cases hci : alget s.client_info c with
          | none => exact ih _ _
          | some ci =>
            by_cases hpend : tid ∈ s.pending_tasks
            · simp only [hpend, if_true]
              exact (ih _ _).trans (List.erase_sublist _ _)
            · simp only [hpend, if_false]
              exact ih _ _
        · simp only [hsend, if_false]
          cases hci : alget s.client_info c with
          | none => exact ih _ _
          | some ci => exact ih _ _

/-- A dispatch pass only removes queue entries, preserving the order of
the rest. -/
theorem assign_pending_sublist {s : ServerState} {now : Nat}
    {sendOk : String → String → Bool} :
    List.Sublist (assign_pending_tasks s now sendOk).pending_tasks s.pending_tasks := by
  unfold assign_pending_tasks
  by_cases h1 : s.pending_tasks = []
  · rw [if_pos h1]
  · rw [if_neg h1]
    by_cases h2 : idleOf s = []
    · rw [if_pos h2]
    · rw [if_neg h2]
      exact assignLoop_pending_sublist sendOk now s.pending_tasks (idleOf s) s

/-- C3 (amended): the exactness part fails — an error message naming a
queued task marks it failed without removing it from the queue — but the
rest of the claim holds: in every reachable state the queue contains the
id of every `pending` task, every queued id names an existing task that
is `pending` or `failed`, a newly created task is appended to the tail
(exactly so when no worker is idle; in general the immediate dispatch
pass afterwards only removes entries), a disconnect appends the requeued
ids at the tail in task-store (creation) order, and a dispatch pass
removes queue entries without reordering the remainder. -/
theorem c3_queue_contents {s : ServerState} (hreach : Reachable s) :
    (∀ tid t, alget s.tasks tid = some t → t.status = TStatus.pending →
      tid ∈ s.pending_tasks) ∧
    (∀ tid ∈ s.pending_tasks, ∃ t, alget s.tasks tid = some t ∧
      (t.status = TStatus.pending ∨ t.status = TStatus.failed)) ∧
    (∀ (ttype : String) (dims : Nat) (tid : String) (now : Nat)
      (ok : String → String → Bool),
      List.Sublist (create_task s ttype dims tid now ok).pending_tasks
        (s.pending_tasks ++ [tid]) ∧
      (idleOf s = [] →
        (create_task s ttype dims tid now ok).pending_tasks =
          s.pending_tasks ++ [tid])) ∧
    (∀ c, c ∈ s.clients → (alget s.client_info c).isSome →
      (unregister_client s c).pending_tasks =
        s.pending_tasks ++ (s.tasks.filter
          (fun p => p.2.assignedTo = some c ∧
            p.2.status = TStatus.processing)).map Prod.fst) ∧
    (∀ (now : Nat) (ok : String → String → Bool),
      List.Sublist (assign_pending_tasks s now ok).pending_tasks s.pending_tasks) := by
  refine ⟨(invS_reachable hreach).pending_mem, fun tid hmem => ?_, ?_, ?_, ?_⟩
  · obtain ⟨t, h1, h2, _⟩ := (invS_reachable hreach).queue_ok tid hmem
    exact ⟨t, h1, h2⟩
  · intro ttype dims tid now ok
    constructor
    · exact assign_pending_sublist
    · intro hidle
      show (assign_pending_tasks
        { s with
          tasks := alset s.tasks tid
            { id := tid, ttype := ttype, status := TStatus.pending, assignedTo := none,
              result := none, startTime := none, endTime := none,
              dimensions := dims, created := now },
          pending_tasks := s.pending_tasks ++ [tid] } now ok).pending_tasks
        = s.pending_tasks ++ [tid]
      rw [assign_noidle ((idleOf_set_tasks_pending s _ _).trans hidle)]
  · intro c hcmem hcsome
    simp only [unregister_client, hcmem, hcsome, if_true]
  · intro now ok
    exact assign_pending_sublist

/-- C3 witness: the theorem applied at the concrete reachable state
`c3s2`. -/
theorem c3_witness :
    Reachable c3s2 ∧
    ((∀ tid t, alget c3s2.tasks tid = some t → t.status = TStatus.pending →
      tid ∈ c3s2.pending_tasks) ∧
    (∀ tid ∈ c3s2.pending_tasks, ∃ t, alget c3s2.tasks tid = some t ∧
      (t.status = TStatus.pending ∨ t.status = TStatus.failed)) ∧
    (∀ (ttype : String) (dims : Nat) (tid : String) (now : Nat)
      (ok : String → String → Bool),
      List.Sublist (create_task c3s2 ttype dims tid now ok).pending_tasks
        (c3s2.pending_tasks ++ [tid]) ∧
      (idleOf c3s2 = [] →
        (create_task c3s2 ttype dims tid now ok).pending_tasks =
          c3s2.pending_tasks ++ [tid])) ∧
    (∀ c, c ∈ c3s2.clients → (alget c3s2.client_info c).isSome →
      (unregister_client c3s2 c).pending_tasks =
        c3s2.pending_tasks ++ (c3s2.tasks.filter
          (fun p => p.2.assignedTo = some c ∧
            p.2.status = TStatus.processing)).map Prod.fst) ∧
    (∀ (now : Nat) (ok : String → String → Bool),
      List.Sublist (assign_pending_tasks c3s2 now ok).pending_tasks
        c3s2.pending_tasks)) := by
  have h1 : Reachable c3s1 := Reachable.next _ Reachable.init (show alget initState.tasks "A" = none by decide)
  have h2 : Reachable c3s2 := Reachable.next _ h1 trivial
  exact ⟨h2, c3_queue_contents h2⟩

end JsonHarmony

namespace JsonHarmony

/-- Trace for C2: register `c1`, create `A` (dispatched to `c1`), create
`B` (stays pending, no idle client), error from `c1` naming `B`, then a
dispatch pass. -/
def c2s1 : ServerState := step initState (Event.message "c1" (Msg.register none none) 0 okAll)

def c2s2 : ServerState := step c2s1 (Event.newTask "dot" 0 "A" 1 okAll)

def c2s3 : ServerState := step c2s2 (Event.newTask "dot" 0 "B" 2 okAll)

def c2s4 : ServerState :=
  step c2s3 (Event.message "c1" (Msg.error (some "B") (some "boom")) 3 okAll)

def c2s5 : ServerState := step c2s4 (Event.dispatch 4 okAll)

/-- C2 counterexample: in the reachable state after the error/dispatch
sequence, both task `A` and task `B` are simultaneously `processing` with
`assignedTo = "c1"`; the claimed sequence does yield two processing tasks
on one client. -/
theorem c2_cex :
    Reachable c2s5 ∧ ("A" : String) ≠ "B" ∧
    (alget c2s5.tasks "A").map Task.status = some TStatus.processing ∧
    (alget c2s5.tasks "A").bind Task.assignedTo = some "c1" ∧
    (alget c2s5.tasks "B").map Task.status = some TStatus.processing ∧
    (alget c2s5.tasks "B").bind Task.assignedTo = some "c1" := by
  have h1 : Reachable c2s1 := Reachable.next _ Reachable.init trivial
  have h2 : Reachable c2s2 :=
    Reachable.next _ h1 (show alget c2s1.tasks "A" = none by decide)
  have h3 : Reachable c2s3 :=
    Reachable.next _ h2 (show alget c2s2.tasks "B" = none by decide)
  have h4 : Reachable c2s4 := Reachable.next _ h3 trivial
  exact ⟨Reachable.next _ h4 trivial, by decide, by decide, by decide, by decide, by decide⟩

/-- C2 (amended): an error message from client `c` naming an existing
task other than the one `c` is processing sets `c` idle while its task
stays processing and assigned to `c`; a later dispatch pass can therefore
hand `c` a second simultaneous processing task (refuting the at-most-one
invariant, as `c2_cex` exhibits). -/
theorem c2_error_unassigns_reporter {s : ServerState} {c tidA tidB : String}
    {tA tB : Task} {emsg : Option String} {now : Nat} {ok : String → String → Bool}
    {ci : ClientInfo}
    (hA : alget s.tasks tidA = some tA) (_hproc : tA.status = TStatus.processing)
    (_hass : tA.assignedTo = some c) (hB : alget s.tasks tidB = some tB)
    (hne : tidB ≠ tidA) (hc : alget s.client_info c = some ci) :
    alget (handle_client_message s c (Msg.error (some tidB) emsg) now ok).tasks tidA
      = some tA ∧
    alget (handle_client_message s c (Msg.error (some tidB) emsg) now ok).client_info c
      = some { ci with status := CStatus.idle } := by
  simp only [handle_client_message, hB, hc]
  constructor
  · rw [alget_alset, if_neg hne]
    exact hA
  · rw [alget_alset, if_pos rfl]

/-- The processing task `A` of `c2s3`. -/
def c2task : Task :=
  { id := "A", ttype := "dot", status := TStatus.processing, assignedTo := some "c1",
    result := none, startTime := some 1, endTime := none, dimensions := 0, created := 1 }

/-- The pending task `B` of `c2s3`. -/
def c2taskB : Task :=
  { id := "B", ttype := "dot", status := TStatus.pending, assignedTo := none,
    result := none, startTime := none, endTime := none, dimensions := 0, created := 2 }

/-- The registry record of `c1` in `c2s3`. -/
def c2ci : ClientInfo :=
  { name := "Unknown Client", cores := 1, performance := 0,
    status := CStatus.computing, last_seen := 0 }

/-- C2 witness: the theorem applied at the concrete state `c2s3`. -/
theorem c2_witness :
    alget c2s3.tasks "A" = some c2task ∧ c2task.status = TStatus.processing ∧
    c2task.assignedTo = some "c1" ∧
    (alget (handle_client_message c2s3 "c1" (Msg.error (some "B") (some "boom")) 3 okAll).tasks "A"
      = some c2task ∧
    alget (handle_client_message c2s3 "c1" (Msg.error (some "B") (some "boom")) 3 okAll).client_info "c1"
      = some { c2ci with status := CStatus.idle }) :=
  ⟨by decide, by decide, by decide,
    @c2_error_unassigns_reporter c2s3 "c1" "A" "B" c2task c2taskB (some "boom") 3 okAll c2ci
      (by decide) (by decide) (by decide) (by decide) (by decide) (by decide)⟩

/-- Trace for C4: create `A` with no clients, fail it by error message,
register `c1`, then run a dispatch pass. -/
def c4s1 : ServerState := step initState (Event.newTask "dot" 0 "A" 0 okAll)

def c4s2 : ServerState :=
  step c4s1 (Event.message "c1" (Msg.error (some "A") (some "boom")) 1 okAll)

def c4s3 : ServerState := step c4s2 (Event.message "c1" (Msg.register none none) 2 okAll)

def c4s4 : ServerState := step c4s3 (Event.dispatch 3 okAll)

/-- C4 counterexample: the error message fails task `A` although `A` was
`pending` (not `processing`), and the failed task is later dispatched
again — it becomes `processing` after the dispatch pass, refuting both
"only from PROCESSING" and "never dispatched again". -/
theorem c4_cex :
    Reachable c4s4 ∧
    (alget c4s1.tasks "A").map Task.status = some TStatus.pending ∧
    (alget c4s2.tasks "A").map Task.status = some TStatus.failed ∧
    c4s2.total_failed_tasks = 1 ∧
    (alget c4s4.tasks "A").map Task.status = some TStatus.processing := by
  have h1 : Reachable c4s1 :=
    Reachable.next _ Reachable.init (show alget initState.tasks "A" = none by decide)
  have h2 : Reachable c4s2 := Reachable.next _ h1 trivial
  have h3 : Reachable c4s3 := Reachable.next _ h2 trivial
  exact ⟨Reachable.next _ h3 trivial, by decide, by decide, by decide, by decide⟩

/-- C4 (amended): an error message naming any existing task sets that
task's status to `failed` regardless of its prior status, increments the
failed counter by one on each receipt, leaves the pending queue unchanged
(so a task failed while queued stays queued and can be dispatched again),
and sets the reporting client, if registered, to idle. -/
theorem c4_error_any_status {s : ServerState} {c tid : String} {emsg : Option String}
    {now : Nat} {ok : String → String → Bool} {t : Task}
    (hget : alget s.tasks tid = some t) :
    alget (handle_client_message s c (Msg.error (some tid) emsg) now ok).tasks tid
      = some { t with status := TStatus.failed } ∧
    (handle_client_message s c (Msg.error (some tid) emsg) now ok).total_failed_tasks
      = s.total_failed_tasks + 1 ∧
    (handle_client_message s c (Msg.error (some tid) emsg) now ok).pending_tasks
      = s.pending_tasks ∧
    (∀ ci, alget s.client_info c = some ci →
      alget (handle_client_message s c (Msg.error (some tid) emsg) now ok).client_info c
        = some { ci with status := CStatus.idle }) := by
  simp only [handle_client_message, hget]
  split
  next hci =>
    refine ⟨by rw [alget_alset, if_pos rfl], rfl, rfl, ?_⟩
    intro ci h
    exact Option.noConfusion (hci.symm.trans h)
  next ci0 hci =>
    refine ⟨by rw [alget_alset, if_pos rfl], rfl, rfl, ?_⟩
    intro ci h
    simp only [hci, Option.some.injEq] at h
    subst h
    rw [alget_alset, if_pos rfl]

/-- The pending task `A` of `c4s1`. -/
def c4task : Task :=
  { id := "A", ttype := "dot", status := TStatus.pending, assignedTo := none,
    result := none, startTime := none, endTime := none, dimensions := 0, created := 0 }

/-- C4 witness: the theorem applied at the concrete state `c4s1` (task
`A` pending, sender unregistered). -/
theorem c4_witness :
    alget c4s1.tasks "A" = some c4task ∧
    (alget (handle_client_message c4s1 "c1" (Msg.error (some "A") (some "boom")) 1 okAll).tasks "A"
      = some { c4task with status := TStatus.failed } ∧
    (handle_client_message c4s1 "c1" (Msg.error (some "A") (some "boom")) 1 okAll).total_failed_tasks
      = c4s1.total_failed_tasks + 1 ∧
    (handle_client_message c4s1 "c1" (Msg.error (some "A") (some "boom")) 1 okAll).pending_tasks
      = c4s1.pending_tasks ∧
    (∀ ci, alget c4s1.client_info "c1" = some ci →
      alget (handle_client_message c4s1 "c1" (Msg.error (some "A") (some "boom")) 1 okAll).client_info "c1"
        = some { ci with status := CStatus.idle })) :=
  ⟨by decide, c4_error_any_status (by decide)⟩

end JsonHarmony

namespace JsonHarmony

/-- Trace for C5: register `c1`, create `A` (dispatched), `c1` reports a
result, then `c1` reports a second (duplicate) result for `A`. -/
def c5s1 : ServerState := step initState (Event.message "c1" (Msg.register none none) 0 okAll)

def c5s2 : ServerState := step c5s1 (Event.newTask "dot" 0 "A" 1 okAll)

def c5s3 : ServerState :=
  step c5s2 (Event.message "c1" (Msg.taskResult (some "A") (some 7) (some 5)) 2 okAll)

def c5s4 : ServerState :=
  step c5s3 (Event.message "c1" (Msg.taskResult (some "A") (some 8) (some 6)) 3 okAll)

/-- C5 counterexample: a duplicate result for the already-completed task
`A` from its original assignee is re-processed — the completed counter
moves from 1 to 2 and the stored result changes — because
`handle_task_result` checks only `assignedTo`, never that the task is
currently `processing`. -/
theorem c5_cex :
    Reachable c5s4 ∧
    (alget c5s3.tasks "A").map Task.status = some TStatus.completed ∧
    c5s3.total_completed_tasks = 1 ∧
    c5s4.total_completed_tasks = 2 ∧
    (alget c5s4.tasks "A").bind Task.result = some 8 := by
  have h1 : Reachable c5s1 := Reachable.next _ Reachable.init trivial
  have h2 : Reachable c5s2 :=
    Reachable.next _ h1 (show alget c5s1.tasks "A" = none by decide)
  have h3 : Reachable c5s3 := Reachable.next _ h2 trivial
  exact ⟨Reachable.next _ h3 trivial, by decide, by decide, by decide, by decide⟩

/-- C5 (amended): `handle_task_result` drops results for unknown tasks
and results whose sender differs from `assignedTo`, leaving the state
unchanged; but whenever `assignedTo` equals the sender it completes the
task and increments the counter regardless of the current status, so a
duplicate result from the original assignee is re-processed (the stated
claim's "not currently PROCESSING ⇒ dropped" is false; `c5_cex`). -/
theorem c5_result_handling {s : ServerState} {c tid : String} {r : Nat}
    {et : Rat} {now : Nat} {ok : String → String → Bool} :
    (alget s.tasks tid = none → handle_task_result s c tid r et now ok = s) ∧
    (∀ t, alget s.tasks tid = some t → t.assignedTo ≠ some c →
      handle_task_result s c tid r et now ok = s) ∧
    (∀ t ci, alget s.tasks tid = some t → t.assignedTo = some c →
      alget s.client_info c = some ci → s.pending_tasks = [] →
      handle_task_result s c tid r et now ok =
        { s with
          tasks := alset s.tasks tid
            { t with status := TStatus.completed, result := some r, endTime := some now },
          client_info := alset s.client_info c
            { ci with status := CStatus.idle, last_seen := now },
          total_completed_tasks := s.total_completed_tasks + 1,
          latencies := s.latencies ++ [et] }) := by
  refine ⟨?_, ?_, ?_⟩
  · intro h
    simp only [handle_task_result, h]
  · intro t h hne
    simp only [handle_task_result, h]
    rw [if_neg hne]
  · intro t ci h ha hc hp
    simp only [handle_task_result, h, hc]
    rw [if_pos ha]
    simp only [assign_pending_tasks, hp, if_true]

/-- The completed task `A` of `c5s3`. -/
def c5taskDone : Task :=
  { id := "A", ttype := "dot", status := TStatus.completed, assignedTo := some "c1",
    result := some 7, startTime := some 1, endTime := some 2, dimensions := 0, created := 1 }

/-- The registry record of `c1` in `c5s3`. -/
def c5ci : ClientInfo :=
  { name := "Unknown Client", cores := 1, performance := 0,
    status := CStatus.idle, last_seen := 2 }

/-- C5 witness: the theorem applied at the concrete state `c5s3` with the
duplicate result for the completed task `A`. -/
theorem c5_witness :
    alget c5s3.tasks "A" = some c5taskDone ∧
    c5taskDone.assignedTo = some "c1" ∧
    alget c5s3.client_info "c1" = some c5ci ∧
    c5s3.pending_tasks = [] ∧
    handle_task_result c5s3 "c1" "A" 8 6 3 okAll =
      { c5s3 with
        tasks := alset c5s3.tasks "A"
          { c5taskDone with status := TStatus.completed, result := some 8, endTime := some 3 },
        client_info := alset c5s3.client_info "c1"
          { c5ci with status := CStatus.idle, last_seen := 3 },
        total_completed_tasks := c5s3.total_completed_tasks + 1,
        latencies := c5s3.latencies ++ [6] } :=
  ⟨by decide, by decide, by decide, by decide,
    (@c5_result_handling c5s3 "c1" "A" 8 6 3 okAll).2.2 c5taskDone c5ci
      (by decide) (by decide) (by decide) (by decide)⟩

/-- State for the C9 witness: a registered client `c1` that is computing
the processing task `A`. -/
def c9w : ServerState :=
  { clients := ["c1"],
    client_info := [("c1",
      { name := "worker", cores := 4, performance := 0,
        status := CStatus.computing, last_seen := 3 })],
    tasks := [("A",
      { id := "A", ttype := "dot", status := TStatus.processing, assignedTo := some "c1",
        result := none, startTime := some 3, endTime := none, dimensions := 0, created := 2 })],
    pending_tasks := [], start_time := none,
    total_completed_tasks := 0, total_failed_tasks := 0, latencies := [] }

/-- C9: a register message for an already-registered connection id
overwrites the record and unconditionally sets status `idle` and
last-seen `now`, even while that client is `computing` and a task
assigned to it is still `processing`; the task store is untouched, so
the task stays `processing` and assigned. -/
theorem c9_reregister_overwrites {s : ServerState} {c : String}
    {nm : Option String} {cores : Option Nat} {now : Nat}
    {ok : String → String → Bool} {ci : ClientInfo} {tid : String} {t : Task}
    (_hc : alget s.client_info c = some ci) (_hcomp : ci.status = CStatus.computing)
    (ht : alget s.tasks tid = some t) (_hproc : t.status = TStatus.processing)
    (_hass : t.assignedTo = some c) :
    alget (handle_client_message s c (Msg.register nm cores) now ok).client_info c =
      some { name := nm.getD "Unknown Client", cores := cores.getD 1, performance := 0,
             status := CStatus.idle, last_seen := now } ∧
    (handle_client_message s c (Msg.register nm cores) now ok).tasks = s.tasks ∧
    alget (handle_client_message s c (Msg.register nm cores) now ok).tasks tid = some t := by
  refine ⟨?_, rfl, ht⟩
  simp only [handle_client_message, register_client]
  rw [alget_alset, if_pos rfl]

/-- C9 witness: the theorem applied at the concrete state `c9w`. -/
theorem c9_witness :
    alget c9w.client_info "c1" = some
      { name := "worker", cores := 4, performance := 0,
        status := CStatus.computing, last_seen := 3 } ∧
    (alget c9w.tasks "A").map Task.status = some TStatus.processing ∧
    (alget (handle_client_message c9w "c1" (Msg.register (some "w2") (some 8)) 9 okAll).client_info "c1" =
      some { name := "w2", cores := 8, performance := 0,
             status := CStatus.idle, last_seen := 9 } ∧
    (handle_client_message c9w "c1" (Msg.register (some "w2") (some 8)) 9 okAll).tasks = c9w.tasks ∧
    alget (handle_client_message c9w "c1" (Msg.register (some "w2") (some 8)) 9 okAll).tasks "A" =
      some { id := "A", ttype := "dot", status := TStatus.processing, assignedTo := some "c1",
             result := none, startTime := some 3, endTime := none, dimensions := 0, created := 2 }) :=
  ⟨by decide, by decide,
    @c9_reregister_overwrites c9w "c1" (some "w2") (some 8) 9 okAll
      { name := "worker", cores := 4, performance := 0,
        status := CStatus.computing, last_seen := 3 } "A"
      { id := "A", ttype := "dot", status := TStatus.processing, assignedTo := some "c1",
        result := none, startTime := some 3, endTime := none, dimensions := 0, created := 2 }
      (by decide) (by decide) (by decide) (by decide) (by decide)⟩

/-- C10: a `task_result` message whose `result` is `None` or whose
`task_id` is missing or falsy (the empty string) causes no state change
at all. -/
theorem c10_falsy_result_noop {s : ServerState} {c : String} {now : Nat}
    {ok : String → String → Bool} (task_id : Option String) (result : Option Nat)
    (et : Option Rat)
    (h : result = none ∨ task_id = none ∨ task_id = some "") :
    handle_client_message s c (Msg.taskResult task_id result et) now ok = s := by
  rcases h with hr | hn | he
  · subst hr
    cases task_id with
    | none => rfl
    | some tid =>
      simp only [handle_client_message]
      by_cases h2 : tid ≠ "" <;> simp [h2]
  · subst hn
    rfl
  · subst he
    simp [handle_client_message]

/-- C10 witness: the theorem applied at the concrete state `initState`
with a null result. -/
theorem c10_witness :
    ((some 5 : Option Nat) = none ∨ (none : Option String) = none ∨
      (none : Option String) = some "") ∧
    handle_client_message initState "c1" (Msg.taskResult none (some 5) none) 0 okAll =
      initState :=
  ⟨Or.inr (Or.inl rfl),
    c10_falsy_result_noop none (some 5) none (Or.inr (Or.inl rfl))⟩

end JsonHarmony

namespace JsonHarmony

theorem zip_snd_take {α : Type} (l1 l2 : List α) (h : l1.length ≤ l2.length) :
    (l1.zip l2).map Prod.snd = l2.take l1.length := by
  induction l1 generalizing l2 with
  | nil => simp
  | cons a l ih =>
    match l2 with
    | [] => simp at h
    | b :: l2 => simp [List.zip_cons_cons, ih l2 (Nat.succ_le_succ_iff.mp h)]

/-- C6: with the queue equal to `ts` (all tasks pending, no duplicate
ids), the idle pool equal to `cs` in registration order, `|ts| ≤ |cs|`,
and every send succeeding, one `assign_pending_tasks` pass empties the
queue, assigns the i-th queued task (FIFO) to the i-th idle client
(registration order) and marks that client computing; the assigned
clients are pairwise distinct and nothing else changes. -/
theorem c6_dispatch_exact {s : ServerState} {now : Nat} (ts cs : List String)
    (hp : s.pending_tasks = ts)
    (hts : ∀ tid ∈ ts, ∃ t, alget s.tasks tid = some t ∧ t.status = TStatus.pending)
    (hnd : ts.Nodup) (hkeys : (alkeys s.client_info).Nodup)
    (hidle : idleOf s = cs) (hlen : ts.length ≤ cs.length) :
    (assign_pending_tasks s now (fun _ _ => true)).pending_tasks = [] ∧
    (∀ p ∈ ts.zip cs, ∃ t, alget s.tasks p.1 = some t ∧
      alget (assign_pending_tasks s now (fun _ _ => true)).tasks p.1 =
        some { t with status := TStatus.processing, assignedTo := some p.2,
                      startTime := some now } ∧
      ∃ ci, alget s.client_info p.2 = some ci ∧
        alget (assign_pending_tasks s now (fun _ _ => true)).client_info p.2 =
          some { ci with status := CStatus.computing }) ∧
    ((ts.zip cs).map Prod.snd).Nodup ∧
    (∀ tid0, tid0 ∉ ts →
      alget (assign_pending_tasks s now (fun _ _ => true)).tasks tid0 = alget s.tasks tid0) ∧
    (∀ c0, c0 ∉ cs →
      alget (assign_pending_tasks s now (fun _ _ => true)).client_info c0 =
        alget s.client_info c0) := by
  have hcnd : cs.Nodup := hidle ▸ idleOf_nodup hkeys
  have hsnd : ((ts.zip cs).map Prod.snd).Nodup := by
    rw [zip_snd_take ts cs hlen]
    exact hcnd.sublist (List.take_sublist _ _)
  by_cases h1 : s.pending_tasks = []
  · have hts0 : ts = [] := hp ▸ h1
    have hassign : assign_pending_tasks s now (fun _ _ => true) = s := by
      unfold assign_pending_tasks
      rw [if_pos h1]
    rw [hassign, hts0]
    exact ⟨h1, fun p hp2 => by simp at hp2, by simp,
      fun _ _ => rfl, fun _ _ => rfl⟩
  · have hne : ts ≠ [] := fun he => h1 (hp.trans he)
    have hcs_ne : idleOf s ≠ [] := by
      intro he
      have hcse : cs = [] := hidle.symm.trans he
      rw [hcse] at hlen
      simp only [List.length_nil, Nat.le_zero] at hlen
      exact hne (List.length_eq_zero.mp hlen)
    have hassign : assign_pending_tasks s now (fun _ _ => true) =
        assignLoop (fun _ _ => true) now s.pending_tasks (idleOf s) s := by
      unfold assign_pending_tasks
      rw [if_neg h1, if_neg hcs_ne]
    obtain ⟨hpend, hzip⟩ := assignLoop_allok now ts cs s hp hnd hcnd hlen
      (fun tid h2 => by
        obtain ⟨t, ht, _⟩ := hts tid h2
        rw [ht]; rfl)
      (fun c0 h2 => isSome_alget_of_mem_idleOf (by rw [hidle]; exact h2))
    rw [hassign, hp, hidle]
    exact ⟨hpend, hzip, hsnd,
      fun tid0 h2 => assignLoop_tasks_frame _ _ ts cs s tid0 h2,
      fun c0 h2 => assignLoop_info_frame _ _ ts cs s c0 h2⟩

/-- State for the C6 witness: two idle clients and two pending tasks. -/
def c6w : ServerState :=
  { clients := ["c1", "c2"],
    client_info := [
      ("c1", { name := "w1", cores := 2, performance := 0,
               status := CStatus.idle, last_seen := 0 }),
      ("c2", { name := "w2", cores := 4, performance := 0,
               status := CStatus.idle, last_seen := 1 })],
    tasks := [
      ("A", { id := "A", ttype := "dot", status := TStatus.pending, assignedTo := none,
              result := none, startTime := none, endTime := none,
              dimensions := 0, created := 0 }),
      ("B", { id := "B", ttype := "dot", status := TStatus.pending, assignedTo := none,
              result := none, startTime := none, endTime := none,
              dimensions := 0, created := 1 })],
    pending_tasks := ["A", "B"], start_time := none,
    total_completed_tasks := 0, total_failed_tasks := 0, latencies := [] }

/-- C6 witness: the theorem applied at the concrete state `c6w` with
tasks `A`, `B` and idle clients `c1`, `c2`. -/
theorem c6_witness :
    c6w.pending_tasks = ["A", "B"] ∧ idleOf c6w = ["c1", "c2"] ∧
    (∀ tid ∈ (["A", "B"] : List String), ∃ t, alget c6w.tasks tid = some t ∧
      t.status = TStatus.pending) ∧
    ((assign_pending_tasks c6w 7 (fun _ _ => true)).pending_tasks = [] ∧
     (∀ p ∈ (["A", "B"] : List String).zip ["c1", "c2"],
       ∃ t, alget c6w.tasks p.1 = some t ∧
        alget (assign_pending_tasks c6w 7 (fun _ _ => true)).tasks p.1 =
          some { t with status := TStatus.processing, assignedTo := some p.2,
                        startTime := some 7 } ∧
        ∃ ci, alget c6w.client_info p.2 = some ci ∧
          alget (assign_pending_tasks c6w 7 (fun _ _ => true)).client_info p.2 =
            some { ci with status := CStatus.computing }) ∧
     (((["A", "B"] : List String).zip ["c1", "c2"]).map Prod.snd).Nodup ∧
     (∀ tid0, tid0 ∉ (["A", "B"] : List String) →
       alget (assign_pending_tasks c6w 7 (fun _ _ => true)).tasks tid0 = alget c6w.tasks tid0) ∧
     (∀ c0, c0 ∉ (["c1", "c2"] : List String) →
       alget (assign_pending_tasks c6w 7 (fun _ _ => true)).client_info c0 =
         alget c6w.client_info c0)) := by
  have hts : ∀ tid ∈ (["A", "B"] : List String), ∃ t, alget c6w.tasks tid = some t ∧
      t.status = TStatus.pending := by
    intro tid h
    rcases List.mem_cons.mp h with rfl | h2
    · exact ⟨_, rfl, rfl⟩
    · rcases List.mem_cons.mp h2 with rfl | h3
      · exact ⟨_, rfl, rfl⟩
      · exact absurd h3 (List.not_mem_nil tid)
  exact ⟨rfl, by decide, hts,
    c6_dispatch_exact ["A", "B"] ["c1", "c2"] rfl hts (by decide) (by decide)
      (by decide) (by decide)⟩

/-- C7: a dispatch attempt whose send fails commits nothing — with every
send failing, a pass is the identity (every task keeps its queue
position and record, every worker stays idle); and for any send oracle
no queued task is lost: afterwards it is still queued or processing. -/
theorem c7_send_failure_safe {s : ServerState} {now : Nat} :
    ((alkeys s.client_info).Nodup →
      assign_pending_tasks s now (fun _ _ => false) = s) ∧
    (∀ (sendOk : String → String → Bool) (tid : String), tid ∈ s.pending_tasks →
      tid ∈ (assign_pending_tasks s now sendOk).pending_tasks ∨
        ∃ t, alget (assign_pending_tasks s now sendOk).tasks tid = some t ∧
          t.status = TStatus.processing) := by
  constructor
  · intro hnd
    unfold assign_pending_tasks
    by_cases h1 : s.pending_tasks = []
    · rw [if_pos h1]
    · rw [if_neg h1]
      by_cases h2 : idleOf s = []
      · rw [if_pos h2]
      · rw [if_neg h2]
        apply assignLoop_allfail
        intro c0 hc0
        exact alget_of_mem_idleOf hnd hc0
  · intro sendOk tid hmem
    unfold assign_pending_tasks
    by_cases h1 : s.pending_tasks = []
    · rw [if_pos h1]
      exact Or.inl hmem
    · rw [if_neg h1]
      by_cases h2 : idleOf s = []
      · rw [if_pos h2]
        exact Or.inl hmem
      · rw [if_neg h2]
        exact assignLoop_no_loss sendOk now s.pending_tasks (idleOf s) s tid (Or.inl hmem)

/-- State for the C7 witness: one idle client and one pending task. -/
def c7w : ServerState :=
  { clients := ["c1"],
    client_info := [("c1", { name := "w", cores := 1, performance := 0,
                             status := CStatus.idle, last_seen := 0 })],
    tasks := [("A", { id := "A", ttype := "dot", status := TStatus.pending,
                      assignedTo := none, result := none, startTime := none,
                      endTime := none, dimensions := 0, created := 0 })],
    pending_tasks := ["A"], start_time := none,
    total_completed_tasks := 0, total_failed_tasks := 0, latencies := [] }

/-- C7 witness: the theorem applied at the concrete state `c7w`. -/
theorem c7_witness :
    (alkeys c7w.client_info).Nodup ∧
    assign_pending_tasks c7w 5 (fun _ _ => false) = c7w ∧
    "A" ∈ c7w.pending_tasks ∧
    ("A" ∈ (assign_pending_tasks c7w 5 okAll).pending_tasks ∨
      ∃ t, alget (assign_pending_tasks c7w 5 okAll).tasks "A" = some t ∧
        t.status = TStatus.processing) :=
  ⟨by decide, (@c7_send_failure_safe c7w 5).1 (by decide), by decide,
    (@c7_send_failure_safe c7w 5).2 okAll "A" (by decide)⟩

end JsonHarmony

namespace JsonHarmony

/-- Boolean event well-formedness, for checking concrete traces. -/
def eventOkB (s : ServerState) : Event → Bool
  | Event.newTask _ _ tid _ _ => (alget s.tasks tid).isNone
  | _ => true

/-- Boolean well-formedness of a whole trace from a given state. -/
def traceOk : ServerState → List Event → Bool
  | _, [] => true
  | s, e :: es => eventOkB s e && traceOk (step s e) es

theorem eventOk_of_eventOkB {s : ServerState} {e : Event}
    (h : eventOkB s e = true) : eventOk s e := by
  cases e with
  | newTask ty d tid now ok =>
    simp only [eventOkB, Option.isNone_iff_eq_none] at h
    exact h
  | message c m now ok => trivial
  | disconnect c => trivial
  | dispatch now ok => trivial

theorem reachable_foldl (es : List Event) :
    ∀ {s : ServerState}, Reachable s → traceOk s es = true →
      Reachable (es.foldl step s) := by
  induction es with
  | nil => intro s h _; exact h
  | cons e rest ih =>
    intro s h hok
    simp only [traceOk, Bool.and_eq_true] at hok
    exact ih (Reachable.next e h (eventOk_of_eventOkB hok.1)) hok.2

/-- The C8 trace: after registering `c1`, create and complete one task
per round; round `n` uses task id `toString n`. -/
def c8Batch : Nat → List Event
  | 0 => []
  | n + 1 => c8Batch n ++
      [Event.newTask "dot" 0 (toString n) (n + 1) okAll,
       Event.message "c1" (Msg.taskResult (some (toString n)) (some 1) (some 1)) (n + 1) okAll]

/-- The state after 101 completed tasks. -/
def c8State : ServerState :=
  (Event.message "c1" (Msg.register none none) 0 okAll :: c8Batch 101).foldl step initState

set_option maxRecDepth 100000 in
set_option maxHeartbeats 1000000 in
/-- C8 counterexample: the latency history is never truncated — after
101 completions the reachable state holds 101 samples, refuting "retains
at most the most recent 100 samples". -/
theorem c8_cex :
    Reachable c8State ∧ c8State.latencies.length = 101 ∧
    100 < c8State.latencies.length :=
  ⟨reachable_foldl _ Reachable.init (by decide), by decide, by decide⟩

/-- Scalar fields are unchanged by a dispatch pass. -/
theorem assign_scalar_frame {s : ServerState} {now : Nat}
    {sendOk : String → String → Bool} :
    (assign_pending_tasks s now sendOk).latencies = s.latencies ∧
    (assign_pending_tasks s now sendOk).total_completed_tasks = s.total_completed_tasks ∧
    (assign_pending_tasks s now sendOk).total_failed_tasks = s.total_failed_tasks := by
  unfold assign_pending_tasks
  by_cases h1 : s.pending_tasks = []
  · rw [if_pos h1]
    exact ⟨rfl, rfl, rfl⟩
  · rw [if_neg h1]
    by_cases h2 : idleOf s = []
    · rw [if_pos h2]
      exact ⟨rfl, rfl, rfl⟩
    · rw [if_neg h2]
      obtain ⟨_, _, h3, h4, h5⟩ := assignLoop_const sendOk now s.pending_tasks (idleOf s) s
      exact ⟨h5, h3, h4⟩

/-- C8 (amended): the snapshot's `averageLatency` is 0 with no samples
and otherwise the arithmetic mean of the most recent `min 100 n`
samples; the window is at most 100 long; but the latency list itself is
unbounded — each valid completion appends a sample and nothing is ever
dropped (`c8_cex` reaches a list of length 101). -/
theorem c8_latency_average {s : ServerState} :
    (s.latencies = [] → (serverStatus s).avgLatency = 0) ∧
    (s.latencies ≠ [] →
      (serverStatus s).avgLatency = (last100 s).sum / ((last100 s).length : Rat)) ∧
    (last100 s).length ≤ 100 ∧
    (∀ (c tid : String) (r : Nat) (et : Rat) (now : Nat) (ok : String → String → Bool)
      (t : Task) (ci : ClientInfo), alget s.tasks tid = some t → t.assignedTo = some c →
      alget s.client_info c = some ci →
      (handle_task_result s c tid r et now ok).latencies = s.latencies ++ [et]) := by
  refine ⟨?_, ?_, ?_, ?_⟩
  · intro h
    simp [serverStatus, averageLatency, h]
  · intro h
    have hpos : 0 < s.latencies.length := List.length_pos.mpr h
    have hlen : (last100 s).length = s.latencies.length - (s.latencies.length - 100) := by
      simp [last100, List.length_drop]
    have h1 : 1 ≤ (last100 s).length := by omega
    simp only [serverStatus, averageLatency, if_neg h]
    rw [Nat.max_eq_left h1]
  · have hlen : (last100 s).length = s.latencies.length - (s.latencies.length - 100) := by
      simp [last100, List.length_drop]
    omega
  · intro c tid r et now ok t ci hget ha hc
    simp only [handle_task_result, hget, hc]
    rw [if_pos ha]
    exact (assign_scalar_frame).1

/-- State for the C8 witness: one recorded latency and a processing task
assigned to the registered client `c1`. -/
def c8w : ServerState :=
  { clients := ["c1"],
    client_info := [("c1", { name := "w", cores := 1, performance := 0,
                             status := CStatus.computing, last_seen := 0 })],
    tasks := [("A", { id := "A", ttype := "dot", status := TStatus.processing,
                      assignedTo := some "c1", result := none, startTime := some 0,
                      endTime := none, dimensions := 0, created := 0 })],
    pending_tasks := [], start_time := none,
    total_completed_tasks := 0, total_failed_tasks := 0, latencies := [3] }

/-- C8 witness: the theorem applied at the concrete state `c8w`. -/
theorem c8_witness :
    c8w.latencies ≠ [] ∧
    (serverStatus c8w).avgLatency = (last100 c8w).sum / ((last100 c8w).length : Rat) ∧
    (alget c8w.tasks "A").bind Task.assignedTo = some "c1" ∧
    (handle_task_result c8w "c1" "A" 5 7 9 okAll).latencies = c8w.latencies ++ [7] :=
  ⟨by decide, (@c8_latency_average c8w).2.1 (by decide), by decide,
    (@c8_latency_average c8w).2.2.2 "c1" "A" 5 7 9 okAll
      { id := "A", ttype := "dot", status := TStatus.processing,
        assignedTo := some "c1", result := none, startTime := some 0,
        endTime := none, dimensions := 0, created := 0 }
      { name := "w", cores := 1, performance := 0,
        status := CStatus.computing, last_seen := 0 }
      (by decide) (by decide) (by decide)⟩

end JsonHarmony
